import Mathlib

/-!
# Verification of the VAP-Realtime streaming transport and windowing layer

Shallow embedding of the transport/windowing core of the VAP-Realtime
repository (`src/rvap/vap_bc/vap_bc_main.py`, `src/output/console.py`),
with theorems settling the specification's claims about it.

Audio samples are IEEE doubles in the source; here they are modelled as
integers (the windowing, buffering and framing logic never inspects a
sample's numeric value, only moves samples around, so any carrier type is
faithful).  Machine reads from sockets are modelled as lists of bytes
(naturals below 256) or lists of samples, as appropriate.
-/

namespace VapBC

/-! ## Constants of `proc_serv_in` (vap_bc_main.py lines 350-352) and
`VAPRealTime` (lines 183, 211). -/

def FRAME_SIZE_INPUT : Nat := 160

def FRAME_SIZE_VAP : Nat := 1600

def FRAME_SAVE_LAST : Nat := 320

def AUDIO_CONTEXT_LIM : Nat := 50

def CALC_PROCESS_TIME_INTERVAL : Nat := 100

/-! ## Embedding context (vap_bc_main.py lines 258-264)

`process_vap` appends the new embedding to `self.e1_context` /
`self.e2_context` and, when the length exceeds `AUDIO_CONTEXT_LIM`,
keeps the trailing `AUDIO_CONTEXT_LIM` entries
(`self.e1_context[-self.AUDIO_CONTEXT_LIM:]`). -/

def appendContext {α : Type} (ctx : List α) (e : α) : List α :=
  let c := ctx ++ [e]
  if AUDIO_CONTEXT_LIM < c.length then c.drop (c.length - AUDIO_CONTEXT_LIM) else c

/-- The context after a whole sequence of insertions, starting from the
empty context of `VAPRealTime.__init__` (lines 233-234). -/
def runContext {α : Type} (es : List α) : List α :=
  es.foldl appendContext []

/-! ## Audio window assembler (vap_bc_main.py lines 364-401)

Inside `proc_serv_in`, the two channel buffers `current_x1` / `current_x2`
start as 320 zero samples; each received chunk is appended; if the
channel-1 buffer is shorter than `FRAME_SIZE_VAP + FRAME_SAVE_LAST` the
loop continues (no window), else `process_vap` receives the full buffer
contents and both buffers are truncated to their trailing
`FRAME_SAVE_LAST` samples. -/

structure Chunk where
  x1 : List Int
  x2 : List Int
  deriving DecidableEq, Repr

structure Buffers where
  x1 : List Int
  x2 : List Int
  deriving DecidableEq, Repr

def initBuffers : Buffers :=
  ⟨List.replicate FRAME_SAVE_LAST 0, List.replicate FRAME_SAVE_LAST 0⟩

/-- The trailing `n` elements of a list (`lst[-n:]` in the source). -/
def takeLast (l : List Int) (n : Nat) : List Int :=
  l.drop (l.length - n)

/-- One iteration of the receive loop, given one decoded chunk: append to
both buffers; if the channel-1 buffer is below the window threshold,
return no window, else emit the full buffer contents and keep the trailing
`FRAME_SAVE_LAST` samples of each buffer. -/
def ingest (b : Buffers) (c : Chunk) : Buffers × Option (List Int × List Int) :=
  let n1 := b.x1 ++ c.x1
  let n2 := b.x2 ++ c.x2
  if n1.length < FRAME_SIZE_VAP + FRAME_SAVE_LAST then (⟨n1, n2⟩, none)
  else (⟨takeLast n1 FRAME_SAVE_LAST, takeLast n2 FRAME_SAVE_LAST⟩, some (n1, n2))

/-- Run the receive loop over a list of chunks, collecting the emitted
windows in emission order. -/
def runIngest (b : Buffers) : List Chunk → Buffers × List (List Int × List Int)
  | [] => (b, [])
  | c :: cs =>
    let s := ingest b c
    let r := runIngest s.1 cs
    (r.1, s.2.toList ++ r.2)

end VapBC

namespace VapBC

/-! ### Basic lemmas about the context -/

theorem appendContext_eq_drop {α : Type} (ctx : List α) (e : α) :
    appendContext ctx e =
      if AUDIO_CONTEXT_LIM < ctx.length + 1 then
        (ctx ++ [e]).drop (ctx.length + 1 - AUDIO_CONTEXT_LIM)
      else ctx ++ [e] := by
  simp [appendContext]

theorem runContext_eq_drop {α : Type} (es : List α) :
    runContext es = es.drop (es.length - AUDIO_CONTEXT_LIM) := by
  induction es using List.reverseRecOn with
  | nil => simp [runContext]
  | append_singleton es e ih =>
    have hfold : runContext (es ++ [e]) = appendContext (runContext es) e := by
      simp [runContext]
    rw [hfold, ih, appendContext_eq_drop]
    have hdl : (es.drop (es.length - AUDIO_CONTEXT_LIM)).length
        = es.length - (es.length - AUDIO_CONTEXT_LIM) := List.length_drop _ _
    simp only [AUDIO_CONTEXT_LIM] at *
    by_cases hge : 50 ≤ es.length
    · rw [if_pos (by omega)]
      rw [hdl]
      have hA : es.length - (es.length - 50) + 1 - 50 = 1 := by omega
      rw [hA]
      rw [List.drop_append_of_le_length (by rw [List.length_drop]; omega)]
      rw [List.drop_drop]
      rw [List.length_append, List.length_singleton]
      rw [List.drop_append_of_le_length (by omega)]
      congr 2
      omega
    · rw [if_neg (by omega)]
      have h0 : es.length - 50 = 0 := by omega
      rw [List.length_append, List.length_singleton]
      have h1 : es.length + 1 - 50 = 0 := by omega
      rw [h0, h1]
      simp

theorem runContext_length {α : Type} (es : List α) :
    (runContext es).length = min es.length AUDIO_CONTEXT_LIM := by
  rw [runContext_eq_drop, List.length_drop]
  omega

/-! ### Assembler invariants -/

/-- The invariant the channel buffers satisfy between iterations of the
receive loop, when every received chunk carries 160 samples per channel:
both buffers have the same length, the length is a multiple of 160 once
the 320-sample pre-roll is removed, and it stays within [320, 1760]. -/
def goodBuffers (b : Buffers) : Prop :=
  b.x1.length = b.x2.length ∧ b.x1.length % 160 = 0 ∧
    320 ≤ b.x1.length ∧ b.x1.length ≤ 1760

theorem initBuffers_len1 : initBuffers.x1.length = 320 :=
  List.length_replicate _ _

theorem initBuffers_len2 : initBuffers.x2.length = 320 :=
  List.length_replicate _ _

theorem initBuffers_good : goodBuffers initBuffers := by
  refine ⟨?_, ?_, ?_, ?_⟩ <;> rw [initBuffers_len1] <;> try rw [initBuffers_len2]
  all_goals omega

theorem ingest_preserves (b : Buffers) (c : Chunk)
    (hb : goodBuffers b) (h1 : c.x1.length = 160) (h2 : c.x2.length = 160) :
    goodBuffers (ingest b c).1 ∧
      ∀ w, (ingest b c).2 = some w → w.1.length = 1920 ∧ w.2.length = 1920 := by
  obtain ⟨heq, hmod, hlo, hhi⟩ := hb
  simp only [ingest, FRAME_SIZE_VAP, FRAME_SAVE_LAST]
  by_cases hlt : (b.x1 ++ c.x1).length < 1600 + 320
  · rw [if_pos hlt]
    rw [List.length_append, h1] at hlt
    constructor
    · refine ⟨?_, ?_, ?_, ?_⟩ <;> simp only [List.length_append, h1, h2] <;> omega
    · intro w hw
      simp at hw
  · rw [if_neg hlt]
    rw [List.length_append, h1] at hlt
    have hx1 : (b.x1 ++ c.x1).length = 1920 := by
      rw [List.length_append, h1]; omega
    have hx2 : (b.x2 ++ c.x2).length = 1920 := by
      rw [List.length_append, h2]; omega
    constructor
    · refine ⟨?_, ?_, ?_, ?_⟩ <;>
        simp only [takeLast, List.length_drop, hx1, hx2] <;> omega
    · intro w hw
      simp only [Option.some.injEq] at hw
      subst hw
      exact ⟨hx1, hx2⟩

theorem runIngest_windows (cs : List Chunk) : ∀ (b : Buffers),
    goodBuffers b → (∀ ch ∈ cs, ch.x1.length = 160 ∧ ch.x2.length = 160) →
    goodBuffers (runIngest b cs).1 ∧
      ∀ w ∈ (runIngest b cs).2, w.1.length = 1920 ∧ w.2.length = 1920 := by
  induction cs with
  | nil =>
    intro b hb _
    exact ⟨hb, by simp [runIngest]⟩
  | cons c cs ih =>
    intro b hb hlens
    have hc := hlens c (by simp)
    have hrest : ∀ ch ∈ cs, ch.x1.length = 160 ∧ ch.x2.length = 160 := by
      intro ch hch
      exact hlens ch (by simp [hch])
    obtain ⟨hpres, hwin⟩ := ingest_preserves b c hb hc.1 hc.2
    obtain ⟨hgood, hws⟩ := ih (ingest b c).1 hpres hrest
    refine ⟨by simpa [runIngest] using hgood, ?_⟩
    intro w hw
    simp only [runIngest, List.mem_append] at hw
    rcases hw with hw | hw
    · cases hopt : (ingest b c).2 with
      | none =>
        rw [hopt] at hw
        simp at hw
      | some v =>
        rw [hopt] at hw
        simp only [Option.toList_some, List.mem_singleton] at hw
        rw [hw]
        exact hwin v hopt
    · exact hws w hw

theorem runIngest_append (cs cs' : List Chunk) : ∀ (b : Buffers),
    runIngest b (cs ++ cs') =
      ((runIngest (runIngest b cs).1 cs').1,
        (runIngest b cs).2 ++ (runIngest (runIngest b cs).1 cs').2) := by
  induction cs with
  | nil => intro b; simp [runIngest]
  | cons c cs ih =>
    intro b
    show runIngest b (c :: (cs ++ cs')) = _
    simp only [runIngest]
    rw [ih]
    simp [List.append_assoc]

/-- Exact evolution of the channel-buffer length across one 160-sample
chunk, as a pure arithmetic recursion. -/
def stepLen (l : Nat) : Nat :=
  if l + 160 < 1920 then l + 160 else 320

def lenAfter (l : Nat) : Nat → Nat
  | 0 => l
  | n + 1 => lenAfter (stepLen l) n

def winsAfter (l : Nat) : Nat → Nat
  | 0 => 0
  | n + 1 => (if l + 160 < 1920 then 0 else 1) + winsAfter (stepLen l) n

set_option maxRecDepth 4000 in
theorem runIngest_lengths (cs : List Chunk) : ∀ (b : Buffers),
    b.x1.length = b.x2.length →
    (∀ ch ∈ cs, ch.x1.length = 160 ∧ ch.x2.length = 160) →
    (runIngest b cs).1.x1.length = lenAfter b.x1.length cs.length ∧
      (runIngest b cs).1.x2.length = lenAfter b.x1.length cs.length ∧
      (runIngest b cs).2.length = winsAfter b.x1.length cs.length := by
  induction cs with
  | nil =>
    intro b heq _
    simp [runIngest, lenAfter, winsAfter, heq]
  | cons c cs ih =>
    intro b heq hlens
    have hc := hlens c (by simp)
    have hrest : ∀ ch ∈ cs, ch.x1.length = 160 ∧ ch.x2.length = 160 := by
      intro ch hch
      exact hlens ch (by simp [hch])
    simp only [runIngest, List.length_cons, lenAfter, winsAfter]
    simp only [ingest, FRAME_SIZE_VAP, FRAME_SAVE_LAST]
    by_cases hlt : (b.x1 ++ c.x1).length < 1600 + 320
    · rw [if_pos hlt]
      have hstep : stepLen b.x1.length = b.x1.length + 160 := by
        rw [List.length_append, hc.1] at hlt
        simp [stepLen]
        omega
      have hb' : (Buffers.mk (b.x1 ++ c.x1) (b.x2 ++ c.x2)).x1.length
          = b.x1.length + 160 := by
        simp [hc.1]
      obtain ⟨g1, g2, g3⟩ := ih ⟨b.x1 ++ c.x1, b.x2 ++ c.x2⟩
        (by simp [hc.1, hc.2, heq]) hrest
      rw [hb'] at g1 g2 g3
      rw [hstep]
      refine ⟨by simpa using g1, by simpa using g2, ?_⟩
      rw [List.length_append, hc.1] at hlt
      rw [if_pos (by omega)]
      simpa using g3
    · rw [if_neg hlt]
      have hstep : stepLen b.x1.length = 320 := by
        rw [List.length_append, hc.1] at hlt
        simp [stepLen]
        omega
      have hl1 : (takeLast (b.x1 ++ c.x1) 320).length = 320 := by
        simp only [takeLast, List.length_drop, List.length_append, hc.1]
        rw [List.length_append, hc.1] at hlt
        omega
      have hl2 : (takeLast (b.x2 ++ c.x2) 320).length = 320 := by
        simp only [takeLast, List.length_drop, List.length_append, hc.2]
        rw [List.length_append, hc.1] at hlt
        omega
      obtain ⟨g1, g2, g3⟩ := ih ⟨takeLast (b.x1 ++ c.x1) 320, takeLast (b.x2 ++ c.x2) 320⟩
        (by simp [hl1, hl2]) hrest
      rw [hl1] at g1 g2 g3
      rw [hstep]
      refine ⟨by simpa using g1, by simpa using g2, ?_⟩
      rw [List.length_append, hc.1] at hlt
      rw [if_neg (by omega)]
      simp only [Option.toList_some, List.length_append, List.length_cons,
        List.length_nil]
      omega

/-- A concrete 160-sample-per-channel chunk, as assembled by the receive
loop (`size_recv = 8 * 2 * FRAME_SIZE_INPUT` bytes decode to 160 samples
per channel). -/
def chunk160 : Chunk := ⟨List.replicate 160 0, List.replicate 160 0⟩

/-! ## Claim theorems for the assembler and the embedding context -/

/-- C1: after the per-channel buffers start with the 320-sample zero
pre-roll, the receive loop is "not ready" exactly when the appended buffer
is shorter than `window_len + overlap_len = 1600 + 320 = 1920` samples (the
buffers then just grow); otherwise the emitted window is the full buffer
contents of both channels and both buffers are truncated to their trailing
320 samples.  With the loop's 160-sample chunks every emitted window has
length exactly 1920 on both channels, and extending the chunk stream only
appends further windows after the ones already emitted, so windows appear
in strict arrival order and no window is emitted twice. -/
theorem assembler_correct (b : Buffers) (c : Chunk) (cs cs' : List Chunk)
    (h160 : ∀ ch ∈ cs, ch.x1.length = 160 ∧ ch.x2.length = 160) :
    ((ingest b c).2 = none ↔
        (b.x1 ++ c.x1).length < FRAME_SIZE_VAP + FRAME_SAVE_LAST) ∧
    ((b.x1 ++ c.x1).length < FRAME_SIZE_VAP + FRAME_SAVE_LAST →
        (ingest b c).1 = ⟨b.x1 ++ c.x1, b.x2 ++ c.x2⟩) ∧
    (FRAME_SIZE_VAP + FRAME_SAVE_LAST ≤ (b.x1 ++ c.x1).length →
        (ingest b c).2 = some (b.x1 ++ c.x1, b.x2 ++ c.x2) ∧
        (ingest b c).1 = ⟨takeLast (b.x1 ++ c.x1) FRAME_SAVE_LAST,
          takeLast (b.x2 ++ c.x2) FRAME_SAVE_LAST⟩) ∧
    (∀ w ∈ (runIngest initBuffers cs).2, w.1.length = 1920 ∧ w.2.length = 1920) ∧
    (runIngest initBuffers (cs ++ cs')).2 =
      (runIngest initBuffers cs).2 ++
        (runIngest (runIngest initBuffers cs).1 cs').2 := by
  refine ⟨?_, ?_, ?_, ?_, ?_⟩
  · constructor
    · intro hnone
      by_contra hge
      simp only [ingest] at hnone
      rw [if_neg hge] at hnone
      simp at hnone
    · intro hlt
      simp only [ingest]
      rw [if_pos hlt]
  · intro hlt
    simp only [ingest]
    rw [if_pos hlt]
  · intro hge
    simp only [ingest]
    rw [if_neg (by omega)]
    exact ⟨rfl, rfl⟩
  · exact (runIngest_windows cs initBuffers initBuffers_good h160).2
  · rw [runIngest_append]

set_option maxRecDepth 40000 in
/-- Witness for C1 at a concrete input: one 160-sample chunk ingested, then
one more. -/
theorem assembler_correct_witness :
    (∀ ch ∈ [chunk160], ch.x1.length = 160 ∧ ch.x2.length = 160) ∧
    (((ingest initBuffers chunk160).2 = none ↔
        (initBuffers.x1 ++ chunk160.x1).length < FRAME_SIZE_VAP + FRAME_SAVE_LAST) ∧
    ((initBuffers.x1 ++ chunk160.x1).length < FRAME_SIZE_VAP + FRAME_SAVE_LAST →
        (ingest initBuffers chunk160).1 =
          ⟨initBuffers.x1 ++ chunk160.x1, initBuffers.x2 ++ chunk160.x2⟩) ∧
    (FRAME_SIZE_VAP + FRAME_SAVE_LAST ≤ (initBuffers.x1 ++ chunk160.x1).length →
        (ingest initBuffers chunk160).2 =
          some (initBuffers.x1 ++ chunk160.x1, initBuffers.x2 ++ chunk160.x2) ∧
        (ingest initBuffers chunk160).1 =
          ⟨takeLast (initBuffers.x1 ++ chunk160.x1) FRAME_SAVE_LAST,
            takeLast (initBuffers.x2 ++ chunk160.x2) FRAME_SAVE_LAST⟩) ∧
    (∀ w ∈ (runIngest initBuffers [chunk160]).2,
        w.1.length = 1920 ∧ w.2.length = 1920) ∧
    (runIngest initBuffers ([chunk160] ++ [chunk160])).2 =
      (runIngest initBuffers [chunk160]).2 ++
        (runIngest (runIngest initBuffers [chunk160]).1 [chunk160]).2) :=
  ⟨by decide, assembler_correct initBuffers chunk160 [chunk160] [chunk160] (by decide)⟩

/-- C2 counterexample: with 160-sample chunks the first window is already
emitted after the 10th chunk (the channel-1 buffer then holds exactly
320 + 10 * 160 = 1920 samples), and after the 11th chunk each channel
buffer holds 480 samples, not 320. -/
theorem eleven_chunks_counterexample :
    (runIngest initBuffers (List.replicate 10 chunk160)).2.length = 1 ∧
    (runIngest initBuffers (List.replicate 11 chunk160)).1.x1.length = 480 := by
  have h10 := runIngest_lengths (List.replicate 10 chunk160) initBuffers
    (by rw [initBuffers_len1, initBuffers_len2])
    (by
      intro ch hch
      rw [List.eq_of_mem_replicate hch]
      exact ⟨List.length_replicate _ _, List.length_replicate _ _⟩)
  have h11 := runIngest_lengths (List.replicate 11 chunk160) initBuffers
    (by rw [initBuffers_len1, initBuffers_len2])
    (by
      intro ch hch
      rw [List.eq_of_mem_replicate hch]
      exact ⟨List.length_replicate _ _, List.length_replicate _ _⟩)
  rw [initBuffers_len1] at h10 h11
  rw [List.length_replicate] at h10 h11
  refine ⟨?_, ?_⟩
  · rw [h10.2.2]
    decide
  · rw [h11.1]
    decide

/-- C2 (amended): feeding 11 chunks of 160 samples per channel from the
freshly initialized buffers produces exactly one window; that window is
already produced after the 10th chunk (no window exists after 9 chunks) and
has length 1920; immediately after the 10th chunk each channel buffer holds
320 samples, and after the 11th chunk each holds 480. -/
theorem eleven_chunks_amended (cs : List Chunk) (hlen : cs.length = 11)
    (h160 : ∀ ch ∈ cs, ch.x1.length = 160 ∧ ch.x2.length = 160) :
    (runIngest initBuffers cs).2.length = 1 ∧
    (runIngest initBuffers (cs.take 9)).2 = [] ∧
    (runIngest initBuffers (cs.take 10)).2.length = 1 ∧
    (∀ w ∈ (runIngest initBuffers (cs.take 10)).2,
        w.1.length = 1920 ∧ w.2.length = 1920) ∧
    (runIngest initBuffers (cs.take 10)).1.x1.length = 320 ∧
    (runIngest initBuffers (cs.take 10)).1.x2.length = 320 ∧
    (runIngest initBuffers cs).1.x1.length = 480 ∧
    (runIngest initBuffers cs).1.x2.length = 480 := by
  have hinit : initBuffers.x1.length = initBuffers.x2.length := by
    rw [initBuffers_len1, initBuffers_len2]
  have htake : ∀ n : Nat, ∀ ch ∈ cs.take n, ch.x1.length = 160 ∧ ch.x2.length = 160 :=
    fun n ch hch => h160 ch (List.mem_of_mem_take hch)
  have h9 := runIngest_lengths (cs.take 9) initBuffers hinit (htake 9)
  have h10 := runIngest_lengths (cs.take 10) initBuffers hinit (htake 10)
  have h11 := runIngest_lengths cs initBuffers hinit h160
  rw [initBuffers_len1] at h9 h10 h11
  rw [List.length_take, hlen] at h9 h10
  rw [hlen] at h11
  refine ⟨?_, ?_, ?_, ?_, ?_, ?_, ?_, ?_⟩
  · rw [h11.2.2]; decide
  · rw [← List.length_eq_zero, h9.2.2]; decide
  · rw [h10.2.2]; decide
  · exact (runIngest_windows (cs.take 10) initBuffers initBuffers_good (htake 10)).2
  · rw [h10.1]; decide
  · rw [h10.2.1]; decide
  · rw [h11.1]; decide
  · rw [h11.2.1]; decide

set_option maxRecDepth 40000 in
/-- Witness for the amended C2 at a concrete input: eleven all-zero
160-sample chunks. -/
theorem eleven_chunks_amended_witness :
    ((List.replicate 11 chunk160).length = 11 ∧
      ∀ ch ∈ List.replicate 11 chunk160, ch.x1.length = 160 ∧ ch.x2.length = 160) ∧
    ((runIngest initBuffers (List.replicate 11 chunk160)).2.length = 1 ∧
    (runIngest initBuffers ((List.replicate 11 chunk160).take 9)).2 = [] ∧
    (runIngest initBuffers ((List.replicate 11 chunk160).take 10)).2.length = 1 ∧
    (∀ w ∈ (runIngest initBuffers ((List.replicate 11 chunk160).take 10)).2,
        w.1.length = 1920 ∧ w.2.length = 1920) ∧
    (runIngest initBuffers ((List.replicate 11 chunk160).take 10)).1.x1.length = 320 ∧
    (runIngest initBuffers ((List.replicate 11 chunk160).take 10)).1.x2.length = 320 ∧
    (runIngest initBuffers (List.replicate 11 chunk160)).1.x1.length = 480 ∧
    (runIngest initBuffers (List.replicate 11 chunk160)).1.x2.length = 480) :=
  ⟨⟨by decide, by decide⟩,
    eleven_chunks_amended (List.replicate 11 chunk160) (by decide) (by decide)⟩

/-- C3: the per-channel embedding context, filled by `process_vap` starting
from the empty context, holds after more than 50 insertions exactly the
last 50 inserted embeddings in insertion order (oldest evicted first), its
length is then exactly 50, and after any number of insertions the length
never exceeds 50. -/
theorem embedding_context_fifo {α : Type} (es : List α)
    (h : AUDIO_CONTEXT_LIM < es.length) :
    runContext es = es.drop (es.length - AUDIO_CONTEXT_LIM) ∧
    (runContext es).length = AUDIO_CONTEXT_LIM ∧
    ∀ n : Nat, (runContext (es.take n)).length ≤ AUDIO_CONTEXT_LIM := by
  refine ⟨runContext_eq_drop es, ?_, ?_⟩
  · rw [runContext_length]
    omega
  · intro n
    rw [runContext_length]
    exact min_le_right _ _

/-! ## Result distributor broadcast (vap_bc_main.py lines 436-443)

The distributor iterates over `list_socket_out` with a Python `for` loop
and calls `list_socket_out.remove(conn)` inside the loop when sending to
`conn` raises.  A Python list iterator keeps a live index into the list it
iterates, so removing the current element shifts the later connections one
position left and the next iteration lands one past the shifted element.
A connection is modelled by its identity plus how the send attempt behaves
in the source: `sendall` succeeds, `sendall` raises, or `fileno()` already
returns -1 (then the source skips the send and nothing raises). -/

inductive SendBehavior
  | ok
  | raises
  | filenoNeg
  deriving DecidableEq, Repr

structure Conn where
  id : Nat
  behavior : SendBehavior
  deriving DecidableEq, Repr

/-- One broadcast of `proc_serv_out_dist` resumed with the iterator at
index `i`: deliver when `fileno() != -1` and `sendall` succeeds; when the
send raises, remove the connection (`list.remove`: the first equal
element) and continue on the mutated list; when `fileno()` is -1 neither
send nor remove.  Returns the final registry and the ids delivered to, in
order. -/
def broadcastFrom (lst : List Conn) (i : Nat) (delivered : List Nat) :
    List Conn × List Nat :=
  if h : i < lst.length then
    match (lst.get ⟨i, h⟩).behavior with
    | .ok => broadcastFrom lst (i + 1) (delivered ++ [(lst.get ⟨i, h⟩).id])
    | .filenoNeg => broadcastFrom lst (i + 1) delivered
    | .raises => broadcastFrom (lst.erase (lst.get ⟨i, h⟩)) (i + 1) delivered
  else (lst, delivered)
termination_by lst.length - i
decreasing_by
  all_goals first
    | omega
    | (rw [List.length_erase_of_mem (List.get_mem _ _ _)]; omega)

/-- One whole broadcast of the encoded result to the registry. -/
def broadcast (lst : List Conn) : List Conn × List Nat :=
  broadcastFrom lst 0 []

/-- C4 counterexample: three registered consumers of which the first has a
closed socket (its send raises).  The next broadcast removes exactly that
one from the registry, but it delivers only to connection 2: connection 1
is skipped, because the for-loop iterates by index over the very list it
just shortened.  A connection whose file descriptor is already -1 is not
even removed: it is skipped silently and stays registered. -/
theorem broadcast_counterexample :
    (broadcast [⟨0, .raises⟩, ⟨1, .ok⟩, ⟨2, .ok⟩]).1 = [⟨1, .ok⟩, ⟨2, .ok⟩] ∧
    (broadcast [⟨0, .raises⟩, ⟨1, .ok⟩, ⟨2, .ok⟩]).2 = [2] ∧
    (broadcast [⟨0, .filenoNeg⟩, ⟨1, .ok⟩]).1 = [⟨0, .filenoNeg⟩, ⟨1, .ok⟩] := by
  refine ⟨?_, ?_, ?_⟩ <;> simp [broadcast, broadcastFrom]

theorem broadcastFrom_all_ok (lst : List Conn) : ∀ (n i : Nat) (d : List Nat),
    n = lst.length - i →
    (∀ c ∈ lst.drop i, c.behavior = .ok) →
    broadcastFrom lst i d = (lst, d ++ (lst.drop i).map Conn.id) := by
  intro n
  induction n using Nat.strong_induction_on with
  | _ n ih =>
    intro i d hn hok
    rw [broadcastFrom.eq_def]
    by_cases hlt : i < lst.length
    · rw [dif_pos hlt]
      have hsplit : lst.drop i = lst.get ⟨i, hlt⟩ :: lst.drop (i + 1) := by
        rw [List.get_eq_getElem]
        exact List.drop_eq_getElem_cons hlt
      have hmem : lst.get ⟨i, hlt⟩ ∈ lst.drop i := by
        rw [hsplit]
        exact List.mem_cons_self _ _
      have hget : (lst.get ⟨i, hlt⟩).behavior = .ok := hok _ hmem
      rw [hget]
      have hdd : List.drop 1 (List.drop i lst) = List.drop (i + 1) lst := by
        rw [List.drop_drop, Nat.add_comm]
      have hrec := ih (lst.length - (i + 1)) (by omega) (i + 1)
        (d ++ [(lst.get ⟨i, hlt⟩).id]) rfl
        (fun c hc => hok c (by
          rw [← hdd] at hc
          exact List.drop_subset 1 (lst.drop i) hc))
      rw [hrec]
      rw [hsplit]
      simp only [List.map_cons, List.append_assoc, List.singleton_append,
        List.get_eq_getElem, Prod.mk.injEq, true_and]
    · rw [dif_neg hlt]
      have hnil : lst.drop i = [] := List.drop_eq_nil_of_le (by omega)
      rw [hnil]
      simp

theorem broadcastFrom_one_raise (pre : List Conn) :
    ∀ (done post : List Conn) (bad : Conn) (d : List Nat),
    (∀ c ∈ pre, c.behavior = .ok) → (∀ c ∈ post, c.behavior = .ok) →
    bad.behavior = .raises → bad ∉ pre → bad ∉ done →
    broadcastFrom (done ++ pre ++ bad :: post) (done.length) d =
      (done ++ pre ++ post,
        d ++ pre.map Conn.id ++ (post.drop 1).map Conn.id) := by
  induction pre with
  | nil =>
    intro done post bad d _ hpost hbad _ hdone
    simp only [List.nil_append, List.map_nil, List.append_nil]
    rw [broadcastFrom.eq_def]
    have hlt : done.length < (done ++ bad :: post).length := by
      rw [List.length_append]
      simp
    rw [dif_pos hlt]
    have hget : (done ++ bad :: post).get ⟨done.length, hlt⟩ = bad := by
      rw [List.get_eq_getElem]
      rw [List.getElem_append_right (le_refl done.length)]
      simp
    rw [hget, hbad]
    have herase : (done ++ bad :: post).erase bad = done ++ post := by
      rw [List.erase_append_right _ hdone]
      simp [List.erase_cons_head]
    rw [herase]
    have hall := broadcastFrom_all_ok (done ++ post)
      ((done ++ post).length - (done.length + 1)) (done.length + 1) d rfl
      (by
        intro c hc
        apply hpost
        have : (done ++ post).drop (done.length + 1) = post.drop 1 := by
          rw [show done.length + 1 = done.length + 1 from rfl]
          rw [← List.drop_drop]
          rw [List.drop_left]
        rw [this] at hc
        exact List.drop_subset 1 post hc)
    rw [hall]
    have : (done ++ post).drop (done.length + 1) = post.drop 1 := by
      rw [← List.drop_drop, List.drop_left]
    rw [this]
  | cons p pre ih =>
    intro done post bad d hpre hpost hbad hnotp hdone
    have hp : p.behavior = .ok := hpre p (by simp)
    rw [broadcastFrom.eq_def]
    have hlt : done.length < (done ++ (p :: pre) ++ bad :: post).length := by
      simp only [List.length_append, List.length_cons]
      omega
    rw [dif_pos hlt]
    have hget : (done ++ (p :: pre) ++ bad :: post).get ⟨done.length, hlt⟩ = p := by
      rw [List.get_eq_getElem]
      rw [List.getElem_append_left (by simp)]
      rw [List.getElem_append_right (le_refl done.length)]
      simp
    rw [hget, hp]
    have hshape : done ++ (p :: pre) ++ bad :: post =
        (done ++ [p]) ++ pre ++ bad :: post := by
      simp
    have hlen : done.length + 1 = (done ++ [p]).length := by
      simp
    rw [hshape, hlen]
    have hbadp : bad ∉ done ++ [p] := by
      intro hmem
      rcases List.mem_append.mp hmem with hmem | hmem
      · exact hdone hmem
      · rw [List.mem_singleton] at hmem
        exact hnotp (by rw [hmem]; simp)
    rw [ih (done ++ [p]) post bad (d ++ [p.id])
      (fun c hc => hpre c (by simp [hc])) hpost hbad
      (fun hc => hnotp (by simp [hc])) hbadp]
    simp

theorem broadcastFrom_one_fdneg (pre : List Conn) :
    ∀ (done post : List Conn) (fdc : Conn) (d : List Nat),
    (∀ c ∈ pre, c.behavior = .ok) → (∀ c ∈ post, c.behavior = .ok) →
    fdc.behavior = .filenoNeg →
    broadcastFrom (done ++ pre ++ fdc :: post) (done.length) d =
      (done ++ pre ++ fdc :: post,
        d ++ pre.map Conn.id ++ post.map Conn.id) := by
  induction pre with
  | nil =>
    intro done post fdc d _ hpost hfd
    simp only [List.nil_append, List.map_nil, List.append_nil]
    rw [broadcastFrom.eq_def]
    have hlt : done.length < (done ++ fdc :: post).length := by
      rw [List.length_append]
      simp
    rw [dif_pos hlt]
    have hget : (done ++ fdc :: post).get ⟨done.length, hlt⟩ = fdc := by
      rw [List.get_eq_getElem]
      rw [List.getElem_append_right (le_refl done.length)]
      simp
    rw [hget, hfd]
    have hall := broadcastFrom_all_ok (done ++ fdc :: post)
      ((done ++ fdc :: post).length - (done.length + 1)) (done.length + 1) d rfl
      (by
        intro c hc
        apply hpost
        have : (done ++ fdc :: post).drop (done.length + 1) = post := by
          rw [← List.drop_drop, List.drop_left]
          simp
        rw [this] at hc
        exact hc)
    rw [hall]
    have : (done ++ fdc :: post).drop (done.length + 1) = post := by
      rw [← List.drop_drop, List.drop_left]
      simp
    rw [this]
  | cons p pre ih =>
    intro done post fdc d hpre hpost hfd
    have hp : p.behavior = .ok := hpre p (by simp)
    rw [broadcastFrom.eq_def]
    have hlt : done.length < (done ++ (p :: pre) ++ fdc :: post).length := by
      simp only [List.length_append, List.length_cons]
      omega
    rw [dif_pos hlt]
    have hget : (done ++ (p :: pre) ++ fdc :: post).get ⟨done.length, hlt⟩ = p := by
      rw [List.get_eq_getElem]
      rw [List.getElem_append_left (by simp)]
      rw [List.getElem_append_right (le_refl done.length)]
      simp
    rw [hget, hp]
    have hshape : done ++ (p :: pre) ++ fdc :: post =
        (done ++ [p]) ++ pre ++ fdc :: post := by
      simp
    have hlen : done.length + 1 = (done ++ [p]).length := by
      simp
    rw [hshape, hlen]
    rw [ih (done ++ [p]) post fdc (d ++ [p.id])
      (fun c hc => hpre c (by simp [hc])) hpost hfd]
    simp

/-- C4 (amended): during one broadcast, when sending to one connection
raises, exactly that connection is removed from the registry; every
connection registered before it still receives the broadcast, but the
connection immediately after it is skipped for this broadcast (it stays
registered and receives nothing this round), and all later connections
receive it.  A connection whose file descriptor has already become -1 is
not removed at all: the source skips the send, so no exception fires and
it stays in the registry while all other connections receive the
broadcast.  With three consumers of which the first has closed its socket,
the broadcast removes exactly that one but delivers only to the third. -/
theorem broadcast_single_failure (pre post : List Conn) (bad fdc : Conn)
    (hpre : ∀ c ∈ pre, c.behavior = .ok) (hpost : ∀ c ∈ post, c.behavior = .ok)
    (hbad : bad.behavior = .raises) (hnot : bad ∉ pre)
    (hfd : fdc.behavior = .filenoNeg) :
    broadcast (pre ++ bad :: post) =
      (pre ++ post, pre.map Conn.id ++ (post.drop 1).map Conn.id) ∧
    broadcast (pre ++ fdc :: post) =
      (pre ++ fdc :: post, pre.map Conn.id ++ post.map Conn.id) := by
  constructor
  · have h := broadcastFrom_one_raise pre [] post bad [] hpre hpost hbad hnot
      (by simp)
    simpa [broadcast] using h
  · have h := broadcastFrom_one_fdneg pre [] post fdc [] hpre hpost hfd
    simpa [broadcast] using h

/-- Witness for the amended C4 at a concrete input: registries
[ok 1, raising 5, ok 2, ok 3] and [ok 1, fd-invalid 6, ok 2, ok 3]. -/
theorem broadcast_single_failure_witness :
    ((∀ c ∈ [Conn.mk 1 .ok], c.behavior = .ok) ∧
      (∀ c ∈ [Conn.mk 2 .ok, Conn.mk 3 .ok], c.behavior = .ok) ∧
      (Conn.mk 5 .raises).behavior = .raises ∧
      Conn.mk 5 .raises ∉ [Conn.mk 1 .ok] ∧
      (Conn.mk 6 .filenoNeg).behavior = .filenoNeg) ∧
    broadcast ([Conn.mk 1 .ok] ++ Conn.mk 5 .raises :: [Conn.mk 2 .ok, Conn.mk 3 .ok]) =
      ([Conn.mk 1 .ok] ++ [Conn.mk 2 .ok, Conn.mk 3 .ok],
        [Conn.mk 1 .ok].map Conn.id ++
          ([Conn.mk 2 .ok, Conn.mk 3 .ok].drop 1).map Conn.id) ∧
    broadcast ([Conn.mk 1 .ok] ++ Conn.mk 6 .filenoNeg :: [Conn.mk 2 .ok, Conn.mk 3 .ok]) =
      ([Conn.mk 1 .ok] ++ Conn.mk 6 .filenoNeg :: [Conn.mk 2 .ok, Conn.mk 3 .ok],
        [Conn.mk 1 .ok].map Conn.id ++ [Conn.mk 2 .ok, Conn.mk 3 .ok].map Conn.id) :=
  ⟨⟨by decide, by decide, by decide, by decide, by decide⟩,
    broadcast_single_failure [Conn.mk 1 .ok] [Conn.mk 2 .ok, Conn.mk 3 .ok]
      (Conn.mk 5 .raises) (Conn.mk 6 .filenoNeg)
      (by decide) (by decide) (by decide) (by decide) (by decide)⟩

/-! ## Timing instrumentation (vap_bc_main.py lines 316-322)

`process_vap` appends each step's elapsed time to
`list_process_time_context` and, when the length of that list exceeds
`CALC_PROCESS_TIME_INTERVAL` (100), prints `np.average` of the list and
resets it to the empty list.  Latencies are modelled as rationals. -/

def timingStep (l : List ℚ) (x : ℚ) : List ℚ × Option ℚ :=
  let l' := l ++ [x]
  if CALC_PROCESS_TIME_INTERVAL < l'.length then
    ([], some (l'.sum / (l'.length : ℚ)))
  else (l', none)

def runTimingAux (l : List ℚ) : List ℚ → List ℚ × List ℚ
  | [] => (l, [])
  | x :: xs =>
    let s := timingStep l x
    let r := runTimingAux s.1 xs
    (r.1, s.2.toList ++ r.2)

/-- The latency list and the reported means after a sequence of steps,
starting from the empty list of `VAPRealTime.__init__` (line 236). -/
def runTiming (xs : List ℚ) : List ℚ × List ℚ :=
  runTimingAux [] xs

theorem runTimingAux_counts (xs : List ℚ) : ∀ l : List ℚ, l.length ≤ 100 →
    (runTimingAux l xs).1.length = (l.length + xs.length) % 101 ∧
    (runTimingAux l xs).2.length = (l.length + xs.length) / 101 := by
  induction xs with
  | nil =>
    intro l hl
    simp only [runTimingAux, List.length_nil, Nat.add_zero]
    constructor
    · omega
    · omega
  | cons x xs ih =>
    intro l hl
    simp only [runTimingAux, timingStep, CALC_PROCESS_TIME_INTERVAL]
    by_cases hfull : 100 < (l ++ [x]).length
    · rw [if_pos hfull]
      rw [List.length_append, List.length_singleton] at hfull
      obtain ⟨g1, g2⟩ := ih [] (by simp)
      simp only [List.length_nil, Nat.zero_add] at g1 g2
      refine ⟨by rw [g1]; simp; omega, ?_⟩
      simp only [Option.toList_some, List.singleton_append, List.length_cons]
      rw [g2]
      omega
    · rw [if_neg hfull]
      rw [List.length_append, List.length_singleton] at hfull
      obtain ⟨g1, g2⟩ := ih (l ++ [x]) (by simp; omega)
      rw [List.length_append, List.length_singleton] at g1 g2
      refine ⟨by rw [g1]; simp; omega, ?_⟩
      simp only [Option.toList_none, List.nil_append, List.length_cons]
      rw [g2]
      congr 1
      omega

theorem runTimingAux_one_batch (xs : List ℚ) : ∀ l : List ℚ,
    l.length ≤ 100 → l.length + xs.length = 101 →
    (runTimingAux l xs).2 = [(l ++ xs).sum / 101] := by
  induction xs with
  | nil =>
    intro l hl hsum
    rw [List.length_nil] at hsum
    omega
  | cons x xs ih =>
    intro l hl hsum
    rw [List.length_cons] at hsum
    simp only [runTimingAux, timingStep, CALC_PROCESS_TIME_INTERVAL]
    by_cases hfull : 100 < (l ++ [x]).length
    · rw [if_pos hfull]
      rw [List.length_append, List.length_singleton] at hfull
      have hxs : xs = [] := by
        rw [← List.length_eq_zero]
        omega
      subst hxs
      simp only [runTimingAux, Option.toList_some, List.singleton_append,
        List.append_nil]
      have h100len : l.length = 100 := by omega
      have hlen : ((l ++ [x]).length : ℚ) = 101 := by
        rw [List.length_append, List.length_singleton, h100len]
        norm_num
      rw [hlen]
    · rw [if_neg hfull]
      rw [List.length_append, List.length_singleton] at hfull
      rw [ih (l ++ [x]) (by simp; omega) (by simp; omega)]
      simp

/-- C9 counterexample: after exactly 100 inference steps no latency report
has been made and the list still holds all 100 entries; the first report
only happens at step 101.  The claim would have a report (and a cleared
list) at step 100. -/
theorem timing_counterexample :
    (runTiming (List.replicate 100 (0 : ℚ))).2 = [] ∧
    (runTiming (List.replicate 100 (0 : ℚ))).1.length = 100 ∧
    (runTiming (List.replicate 101 (0 : ℚ))).2.length = 1 := by
  have h100 := runTimingAux_counts (List.replicate 100 (0 : ℚ)) [] (by simp)
  have h101 := runTimingAux_counts (List.replicate 101 (0 : ℚ)) [] (by simp)
  rw [List.length_replicate] at h100 h101
  simp only [List.length_nil, Nat.zero_add] at h100 h101
  simp only [runTiming]
  refine ⟨?_, ?_, ?_⟩
  · rw [← List.length_eq_zero, h100.2]
  · rw [h100.1]
  · rw [h101.2]

/-- C9 (amended): the inference step's latency list reports on every 101st
step, not every 100th: a report fires exactly when the appended list's
length exceeds 100, so reports happen after steps 101, 202, ... (the
report count after n steps is n / 101 and the list then holds n % 101
entries); each report is the mean of the 101 latencies collected since the
last report, and after every completed step the list holds at most 100
entries. -/
theorem timing_report_every_101 (xs : List ℚ) :
    (runTiming xs).1.length = xs.length % 101 ∧
    (runTiming xs).2.length = xs.length / 101 ∧
    (∀ n : Nat, (runTiming (xs.take n)).1.length ≤ 100) ∧
    (xs.length = 101 → (runTiming xs).2 = [xs.sum / 101]) := by
  obtain ⟨g1, g2⟩ := runTimingAux_counts xs [] (by simp)
  simp only [List.length_nil, Nat.zero_add] at g1 g2
  refine ⟨g1, g2, ?_, ?_⟩
  · intro n
    obtain ⟨t1, _⟩ := runTimingAux_counts (xs.take n) [] (by simp)
    simp only [List.length_nil, Nat.zero_add] at t1
    rw [runTiming, t1]
    omega
  · intro hlen
    have := runTimingAux_one_batch xs [] (by simp) (by simp [hlen])
    simpa [runTiming] using this

/-- Witness for the amended C9 at a concrete input: 101 steps of zero
latency. -/
theorem timing_report_every_101_witness :
    (runTiming (List.replicate 101 (0 : ℚ))).1.length =
        (List.replicate 101 (0 : ℚ)).length % 101 ∧
    (runTiming (List.replicate 101 (0 : ℚ))).2.length =
        (List.replicate 101 (0 : ℚ)).length / 101 ∧
    (∀ n : Nat,
        (runTiming ((List.replicate 101 (0 : ℚ)).take n)).1.length ≤ 100) ∧
    ((List.replicate 101 (0 : ℚ)).length = 101 →
        (runTiming (List.replicate 101 (0 : ℚ))).2 =
          [(List.replicate 101 (0 : ℚ)).sum / 101]) :=
  timing_report_every_101 (List.replicate 101 (0 : ℚ))

/-! ## Wire framing

Output side (vap_bc_main.py lines 432-434): the server sends
`sent_size.to_bytes(4, 'little') + data_sent` — a 4-byte little-endian
length header followed by exactly that many payload bytes.

Input side (vap_bc_main.py lines 369-385): the server reads a fixed
`size_recv = 8 * 2 * FRAME_SIZE_INPUT = 2560` bytes per frame; no length
header precedes the samples.  The receive loop accumulates `conn.recv`
results until exactly `size_recv` bytes arrived (or a zero-length read
ended the stream).

Bytes are naturals below 256. -/

def SIZE_RECV : Nat := 8 * 2 * FRAME_SIZE_INPUT

/-- `n.to_bytes(4, 'little')`. -/
def leBytes4 (n : Nat) : List Nat :=
  [n % 256, n / 256 % 256, n / 65536 % 256, n / 16777216 % 256]

/-- `int.from_bytes(bs, 'little')` (for any number of bytes; Python
returns 0 on the empty byte string). -/
def leDecode : List Nat → Nat
  | [] => 0
  | b :: rest => b + 256 * leDecode rest

/-- The output frame put on the wire by `proc_serv_out_dist`: header plus
payload. -/
def encodeOutputFrame (payload : List Nat) : List Nat :=
  leBytes4 payload.length ++ payload

/-- What it means for a byte string to be one length-prefixed frame: a
4-byte little-endian header declaring exactly the number of payload bytes
that follow.  This is the shape the claim asserts for BOTH message
directions. -/
def lengthFramed (msg : List Nat) : Prop :=
  4 ≤ msg.length ∧ leDecode (msg.take 4) = msg.length - 4

instance (msg : List Nat) : Decidable (lengthFramed msg) := by
  unfold lengthFramed
  infer_instance

/-- The input-side read of `proc_serv_in`: one frame is exactly
`SIZE_RECV` raw bytes taken from the stream, no header. -/
def recvInputFrame (stream : List Nat) : Option (List Nat × List Nat) :=
  if SIZE_RECV ≤ stream.length then
    some (stream.take SIZE_RECV, stream.drop SIZE_RECV)
  else none

theorem leDecode_leBytes4 (n : Nat) : leDecode (leBytes4 n) = n % 4294967296 := by
  simp only [leBytes4, leDecode]
  omega

theorem take4_leBytes4 (n : Nat) (rest : List Nat) :
    (leBytes4 n ++ rest).take 4 = leBytes4 n := by
  simp [leBytes4]

theorem drop4_leBytes4 (n : Nat) (rest : List Nat) :
    (leBytes4 n ++ rest).drop 4 = rest := by
  simp [leBytes4]

/-- C5 counterexample: the audio input frame for 160 all-zero samples per
channel is the 2560 zero bytes the server reads; it carries no length
header (its first four bytes decode to 0, not to 2556), so the input wire
shape is not length-prefixed.  The output frame, by contrast, is. -/
theorem input_frame_counterexample :
    ¬ lengthFramed (List.replicate SIZE_RECV 0) ∧
    recvInputFrame (List.replicate SIZE_RECV 0) =
      some (List.replicate SIZE_RECV 0, []) ∧
    lengthFramed (encodeOutputFrame [7, 7, 7]) := by
  refine ⟨?_, ?_, by decide⟩
  · intro h
    obtain ⟨-, h2⟩ := h
    rw [List.take_replicate, List.length_replicate] at h2
    simp only [SIZE_RECV, FRAME_SIZE_INPUT] at h2
    norm_num [leDecode] at h2
  · rw [recvInputFrame]
    rw [if_pos (by rw [List.length_replicate])]
    rw [List.take_replicate, List.drop_replicate]
    simp

/-- C5 (amended): only the result output frame is length-prefixed — its
4-byte little-endian header declares exactly the number of payload bytes
that follow.  The audio input frame has no header: the server consumes a
fixed 2560 bytes (8 bytes x 2 channels x 160 samples) of raw payload per
frame. -/
theorem wire_framing (payload stream : List Nat)
    (hp : payload.length < 4294967296) (hs : SIZE_RECV ≤ stream.length) :
    lengthFramed (encodeOutputFrame payload) ∧
    (encodeOutputFrame payload).take 4 = leBytes4 payload.length ∧
    (encodeOutputFrame payload).drop 4 = payload ∧
    recvInputFrame stream = some (stream.take SIZE_RECV, stream.drop SIZE_RECV) ∧
    (stream.take SIZE_RECV).length = SIZE_RECV := by
  refine ⟨⟨?_, ?_⟩, take4_leBytes4 _ _, drop4_leBytes4 _ _, ?_, ?_⟩
  · simp [encodeOutputFrame, leBytes4]
  · rw [encodeOutputFrame, take4_leBytes4, leDecode_leBytes4]
    simp only [List.length_append, leBytes4, List.length_cons, List.length_nil]
    omega
  · rw [recvInputFrame, if_pos hs]
  · rw [List.length_take]
    omega

/-- Witness for the amended C5 at a concrete input: a 3-byte payload and a
2560-byte incoming stream. -/
theorem wire_framing_witness :
    ([7, 7, 7].length < 4294967296 ∧
      SIZE_RECV ≤ (List.replicate 2560 0).length) ∧
    (lengthFramed (encodeOutputFrame [7, 7, 7]) ∧
    (encodeOutputFrame [7, 7, 7]).take 4 = leBytes4 [7, 7, 7].length ∧
    (encodeOutputFrame [7, 7, 7]).drop 4 = [7, 7, 7] ∧
    recvInputFrame (List.replicate 2560 0) =
      some ((List.replicate 2560 0).take SIZE_RECV,
        (List.replicate 2560 0).drop SIZE_RECV) ∧
    ((List.replicate 2560 0).take SIZE_RECV).length = SIZE_RECV) :=
  ⟨⟨by decide, by rw [List.length_replicate]; decide⟩,
    wire_framing [7, 7, 7] (List.replicate 2560 0) (by decide)
      (by rw [List.length_replicate]; decide)⟩

/-! ## Output payload codec and consumer read loop

The payload serialization pair (`conv_vapresult_2_bytearray_bc` on the
server, the matching `conv_bytearray_2_vapresult` decoder on the consumer)
lives in `rvap/common/util.py`, which is not among the sources; it is
modelled from the spec below.  The consumer's framing loop
(src/output/console.py lines 21-26) IS among the sources and is embedded
faithfully. -/

/-- `n.to_bytes(8, 'little')` — 8-byte little-endian word standing for
one IEEE double of the source. -/
def leBytes8 (n : Nat) : List Nat :=
  [n % 256, n / 256 % 256, n / 65536 % 256, n / 16777216 % 256,
    n / 4294967296 % 256, n / 1099511627776 % 256,
    n / 281474976710656 % 256, n / 72057594037927936 % 256]

def readWord8 (bs : List Nat) : Option (Nat × List Nat) :=
  if 8 ≤ bs.length then some (leDecode (bs.take 8), bs.drop 8) else none

def readWord4 (bs : List Nat) : Option (Nat × List Nat) :=
  if 4 ≤ bs.length then some (leDecode (bs.take 4), bs.drop 4) else none

def readWords : Nat → List Nat → Option (List Nat × List Nat)
  | 0, bs => some ([], bs)
  | n + 1, bs =>
    match readWord8 bs with
    | none => none
    | some (w, bs) =>
      match readWords n bs with
      | none => none
      | some (ws, rest) => some (w :: ws, rest)

/-- Modelled from the spec: the result record of the backchannel variant —
timestamp, per-channel raw audio slices, and the two scalar probabilities
`p_bc_react` / `p_bc_emo` (`rvap/common/util.py` is not among the
sources).  Scalars and samples stand for the 8-byte doubles of the
source, as 8-byte little-endian words. -/
structure VapResult where
  t : Nat
  x1 : List Nat
  x2 : List Nat
  pReact : Nat
  pEmo : Nat
  deriving DecidableEq, Repr

/-- Modelled from the spec: `util.conv_vapresult_2_bytearray_bc` — a
fixed, self-describing layout: timestamp, then each audio slice as a
4-byte count followed by its samples, then the two probability scalars. -/
def conv_vapresult_2_bytearray_bc (r : VapResult) : List Nat :=
  leBytes8 r.t ++ (leBytes4 r.x1.length ++ ((r.x1.map leBytes8).flatten ++
    (leBytes4 r.x2.length ++ ((r.x2.map leBytes8).flatten ++
      (leBytes8 r.pReact ++ leBytes8 r.pEmo)))))

/-- Modelled from the spec: `util.conv_bytearray_2_vapresult` for the
backchannel layout; `none` when the payload is too short. -/
def conv_bytearray_2_vapresult (bs : List Nat) : Option (VapResult × List Nat) :=
  match readWord8 bs with
  | none => none
  | some (t, bs) =>
    match readWord4 bs with
    | none => none
    | some (n1, bs) =>
      match readWords n1 bs with
      | none => none
      | some (x1, bs) =>
        match readWord4 bs with
        | none => none
        | some (n2, bs) =>
          match readWords n2 bs with
          | none => none
          | some (x2, bs) =>
            match readWord8 bs with
            | none => none
            | some (pReact, bs) =>
              match readWord8 bs with
              | none => none
              | some (pEmo, bs) => some (⟨t, x1, x2, pReact, pEmo⟩, bs)

/-- Modelled from the spec: the producer-side input payload, interleaving
the 8-byte samples of channel 1 and channel 2
(`util.conv_bytearray_2_2floatarray`'s inverse is not among the sources). -/
def encodeInputPayload : List Nat → List Nat → List Nat
  | a :: as, b :: bs => leBytes8 a ++ (leBytes8 b ++ encodeInputPayload as bs)
  | _, _ => []

def readPairs : Nat → List Nat → Option (List Nat × List Nat × List Nat)
  | 0, bs => some ([], [], bs)
  | n + 1, bs =>
    match readWord8 bs with
    | none => none
    | some (a, bs) =>
      match readWord8 bs with
      | none => none
      | some (b, bs) =>
        match readPairs n bs with
        | none => none
        | some (as, bss, rest) => some (a :: as, b :: bss, rest)

/-- Modelled from the spec: `util.conv_bytearray_2_2floatarray`
deinterleaves the 2560-byte input frame into the two 160-sample channel
sequences. -/
def conv_bytearray_2_2floatarray (bs : List Nat) : Option (List Nat × List Nat) :=
  match readPairs FRAME_SIZE_INPUT bs with
  | some (x1, x2, []) => some (x1, x2)
  | _ => none

/-! ### The consumer's framing loop (src/output/console.py lines 21-26)

```
data_size = sock_server.recv(4)
size = int.from_bytes(data_size, 'little')
data = sock_server.recv(size)
while len(data) < size:
    data += sock_server.recv(size - len(data))
```

`recv` on a stream whose peer is gone returns b'' and raises nothing, so
once the stream is exhausted the while loop makes no progress and spins
forever.  The stream is modelled as the list of bytes still to arrive
before EOF; `recv n` yields the next `min n (stream length)` bytes.
`fuel` bounds how many loop iterations are observed; the source loop has
no bound and, notably, no failure path at all. -/

inductive ReadOutcome
  | ok (data rest : List Nat)
  | spinning
  deriving DecidableEq, Repr

def recvLoop : Nat → List Nat → List Nat → Nat → ReadOutcome
  | 0, acc, stream, size =>
    if size ≤ acc.length then .ok acc stream else .spinning
  | fuel + 1, acc, stream, size =>
    if size ≤ acc.length then .ok acc stream
    else recvLoop fuel (acc ++ stream.take (size - acc.length))
      (stream.drop (size - acc.length)) size

/-- One whole frame read of `process_client`: 4 header bytes, then the
declared number of payload bytes via the accumulate loop. -/
def readFrame (fuel : Nat) (stream : List Nat) : ReadOutcome :=
  let size := leDecode (stream.take 4)
  let rest := stream.drop 4
  recvLoop fuel (rest.take size) (rest.drop size) size

theorem recvLoop_done (fuel : Nat) (acc stream : List Nat) (size : Nat)
    (h : size ≤ acc.length) : recvLoop fuel acc stream size = .ok acc stream := by
  cases fuel with
  | zero => rw [recvLoop, if_pos h]
  | succ fuel => rw [recvLoop, if_pos h]

theorem recvLoop_starved (fuel : Nat) : ∀ (acc stream : List Nat) (size : Nat),
    acc.length + stream.length < size → recvLoop fuel acc stream size = .spinning := by
  induction fuel with
  | zero =>
    intro acc stream size h
    rw [recvLoop, if_neg (by omega)]
  | succ fuel ih =>
    intro acc stream size h
    rw [recvLoop, if_neg (by omega)]
    have htake : stream.take (size - acc.length) = stream :=
      List.take_of_length_le (by omega)
    have hdrop : stream.drop (size - acc.length) = [] :=
      List.drop_eq_nil_of_le (by omega)
    rw [htake, hdrop]
    apply ih
    rw [List.length_append]
    simp
    omega

theorem leDecode_leBytes8 (n : Nat) : leDecode (leBytes8 n) = n % 18446744073709551616 := by
  simp only [leBytes8, leDecode]
  omega

theorem readWord8_encode (a : Nat) (rest : List Nat) (h : a < 18446744073709551616) :
    readWord8 (leBytes8 a ++ rest) = some (a, rest) := by
  rw [readWord8, if_pos (by simp [leBytes8])]
  have ht : (leBytes8 a ++ rest).take 8 = leBytes8 a := by
    simp [leBytes8]
  have hd : (leBytes8 a ++ rest).drop 8 = rest := by
    simp [leBytes8]
  rw [ht, hd, leDecode_leBytes8, Nat.mod_eq_of_lt h]

theorem readWord4_encode (n : Nat) (rest : List Nat) (h : n < 4294967296) :
    readWord4 (leBytes4 n ++ rest) = some (n, rest) := by
  rw [readWord4, if_pos (by simp [leBytes4])]
  rw [take4_leBytes4, drop4_leBytes4, leDecode_leBytes4, Nat.mod_eq_of_lt h]

theorem readWords_encode (ws : List Nat) : ∀ (rest : List Nat),
    (∀ w ∈ ws, w < 18446744073709551616) →
    readWords ws.length ((ws.map leBytes8).flatten ++ rest) = some (ws, rest) := by
  induction ws with
  | nil =>
    intro rest _
    simp [readWords]
  | cons w ws ih =>
    intro rest hw
    rw [List.length_cons, List.map_cons, List.flatten_cons, List.append_assoc]
    rw [readWords]
    rw [readWord8_encode w _ (hw w (by simp))]
    dsimp only
    rw [ih rest (fun v hv => hw v (by simp [hv]))]

theorem readPairs_encode (x1 : List Nat) : ∀ (x2 : List Nat) (rest : List Nat),
    x1.length = x2.length →
    (∀ w ∈ x1, w < 18446744073709551616) →
    (∀ w ∈ x2, w < 18446744073709551616) →
    readPairs x1.length (encodeInputPayload x1 x2 ++ rest) = some (x1, x2, rest) := by
  induction x1 with
  | nil =>
    intro x2 rest hlen _ _
    rw [List.length_nil] at hlen
    have : x2 = [] := by
      rw [← List.length_eq_zero]
      omega
    subst this
    simp [readPairs, encodeInputPayload]
  | cons a as ih =>
    intro x2 rest hlen h1 h2
    match x2 with
    | [] => simp at hlen
    | b :: bs =>
      rw [List.length_cons, readPairs]
      rw [show encodeInputPayload (a :: as) (b :: bs)
          = leBytes8 a ++ (leBytes8 b ++ encodeInputPayload as bs) from rfl]
      rw [List.append_assoc, List.append_assoc]
      rw [readWord8_encode a _ (h1 a (by simp))]
      dsimp only
      rw [readWord8_encode b _ (h2 b (by simp))]
      dsimp only
      rw [ih bs rest (by simpa using hlen)
        (fun v hv => h1 v (by simp [hv])) (fun v hv => h2 v (by simp [hv]))]

theorem conv_roundtrip (r : VapResult) (rest : List Nat)
    (ht : r.t < 18446744073709551616)
    (h1 : ∀ w ∈ r.x1, w < 18446744073709551616)
    (h2 : ∀ w ∈ r.x2, w < 18446744073709551616)
    (hl1 : r.x1.length < 4294967296) (hl2 : r.x2.length < 4294967296)
    (hpr : r.pReact < 18446744073709551616)
    (hpe : r.pEmo < 18446744073709551616) :
    conv_bytearray_2_vapresult (conv_vapresult_2_bytearray_bc r ++ rest) =
      some (r, rest) := by
  rw [conv_vapresult_2_bytearray_bc]
  rw [List.append_assoc, List.append_assoc, List.append_assoc,
    List.append_assoc, List.append_assoc, List.append_assoc]
  rw [conv_bytearray_2_vapresult]
  rw [readWord8_encode r.t _ ht]
  dsimp only
  rw [readWord4_encode r.x1.length _ hl1]
  dsimp only
  rw [readWords_encode r.x1 _ h1]
  dsimp only
  rw [readWord4_encode r.x2.length _ hl2]
  dsimp only
  rw [readWords_encode r.x2 _ h2]
  dsimp only
  rw [readWord8_encode r.pReact _ hpr]
  dsimp only
  rw [readWord8_encode r.pEmo _ hpe]

/-- C8 counterexample: the consumer's read loop does not fail on a
truncated frame.  With a header declaring 10 payload bytes but only 3
arriving before EOF, the loop is still spinning after 1000 iterations, and
one further loop iteration leaves the loop state exactly unchanged
(zero-length reads make no progress), so it spins forever; no error of any
kind is raised. -/
theorem decode_truncated_counterexample :
    readFrame 1000 (leBytes4 10 ++ [1, 2, 3]) = ReadOutcome.spinning ∧
    recvLoop 1 [1, 2, 3] [] 10 = recvLoop 0 [1, 2, 3] [] 10 := by
  constructor
  · rw [readFrame]
    rw [take4_leBytes4, drop4_leBytes4, leDecode_leBytes4]
    apply recvLoop_starved
    simp
  · decide

/-- C8 (amended): `decode(encode(frame)) = frame` holds for both wire
shapes (the length-prefixed output frame with the modelled backchannel
record payload, and the fixed-size interleaved input frame); but when the
header's declared payload length cannot be fully read before the stream
ends, the consumer's read loop never fails with an error — it spins
forever on zero-length reads (for every number of observed iterations it
is still spinning). -/
theorem codec_roundtrip (r : VapResult) (x1 x2 : List Nat) (tail : List Nat)
    (fuel : Nat)
    (ht : r.t < 18446744073709551616)
    (h1 : ∀ w ∈ r.x1, w < 18446744073709551616)
    (h2 : ∀ w ∈ r.x2, w < 18446744073709551616)
    (hl1 : r.x1.length < 4294967296) (hl2 : r.x2.length < 4294967296)
    (hpr : r.pReact < 18446744073709551616)
    (hpe : r.pEmo < 18446744073709551616)
    (henc : (conv_vapresult_2_bytearray_bc r).length < 4294967296)
    (hx : x1.length = 160) (hx2 : x2.length = 160)
    (hv1 : ∀ w ∈ x1, w < 18446744073709551616)
    (hv2 : ∀ w ∈ x2, w < 18446744073709551616) :
    conv_bytearray_2_vapresult (conv_vapresult_2_bytearray_bc r) = some (r, []) ∧
    readFrame fuel (encodeOutputFrame (conv_vapresult_2_bytearray_bc r) ++ tail) =
      .ok (conv_vapresult_2_bytearray_bc r) tail ∧
    conv_bytearray_2_2floatarray (encodeInputPayload x1 x2) = some (x1, x2) ∧
    (∀ n short, short.length < n → n < 4294967296 →
      readFrame fuel (leBytes4 n ++ short) = ReadOutcome.spinning) := by
  refine ⟨?_, ?_, ?_, ?_⟩
  · have := conv_roundtrip r [] ht h1 h2 hl1 hl2 hpr hpe
    simpa using this
  · rw [encodeOutputFrame, List.append_assoc, readFrame]
    rw [take4_leBytes4, drop4_leBytes4, leDecode_leBytes4, Nat.mod_eq_of_lt henc]
    rw [List.take_left' rfl, List.drop_left' rfl]
    exact recvLoop_done _ _ _ _ (le_refl _)
  · rw [conv_bytearray_2_2floatarray]
    have hre := readPairs_encode x1 x2 [] (by omega)
      hv1 hv2
    rw [List.append_nil] at hre
    rw [hx] at hre
    rw [show FRAME_SIZE_INPUT = 160 from rfl, hre]
  · intro n short hshort hn
    rw [readFrame]
    rw [take4_leBytes4, drop4_leBytes4, leDecode_leBytes4, Nat.mod_eq_of_lt hn]
    apply recvLoop_starved
    rw [List.length_take, List.length_drop]
    omega

set_option maxRecDepth 8000 in
/-- Witness for the amended C8 at a concrete input: the record
⟨1, [2], [3], 4, 5⟩, channels of 160 zero samples, an empty tail, fuel
50. -/
theorem codec_roundtrip_witness :
    ((VapResult.mk 1 [2] [3] 4 5).t < 18446744073709551616 ∧
      (∀ w ∈ (VapResult.mk 1 [2] [3] 4 5).x1, w < 18446744073709551616) ∧
      (∀ w ∈ (VapResult.mk 1 [2] [3] 4 5).x2, w < 18446744073709551616) ∧
      (VapResult.mk 1 [2] [3] 4 5).x1.length < 4294967296 ∧
      (VapResult.mk 1 [2] [3] 4 5).x2.length < 4294967296 ∧
      (VapResult.mk 1 [2] [3] 4 5).pReact < 18446744073709551616 ∧
      (VapResult.mk 1 [2] [3] 4 5).pEmo < 18446744073709551616 ∧
      (conv_vapresult_2_bytearray_bc (VapResult.mk 1 [2] [3] 4 5)).length < 4294967296 ∧
      (List.replicate 160 0).length = 160 ∧
      (∀ w ∈ List.replicate 160 0, w < 18446744073709551616)) ∧
    (conv_bytearray_2_vapresult
        (conv_vapresult_2_bytearray_bc (VapResult.mk 1 [2] [3] 4 5)) =
      some (VapResult.mk 1 [2] [3] 4 5, []) ∧
    readFrame 50 (encodeOutputFrame
        (conv_vapresult_2_bytearray_bc (VapResult.mk 1 [2] [3] 4 5)) ++ []) =
      .ok (conv_vapresult_2_bytearray_bc (VapResult.mk 1 [2] [3] 4 5)) [] ∧
    conv_bytearray_2_2floatarray
        (encodeInputPayload (List.replicate 160 0) (List.replicate 160 0)) =
      some (List.replicate 160 0, List.replicate 160 0) ∧
    (∀ n short, short.length < n → n < 4294967296 →
      readFrame 50 (leBytes4 n ++ short) = ReadOutcome.spinning)) :=
  ⟨⟨by decide, by decide, by decide, by decide, by decide, by decide, by decide,
      by decide, by rw [List.length_replicate],
      by
        intro w hw
        rw [List.eq_of_mem_replicate hw]
        decide⟩,
    codec_roundtrip (VapResult.mk 1 [2] [3] 4 5) (List.replicate 160 0)
      (List.replicate 160 0) [] 50 (by decide) (by decide) (by decide)
      (by decide) (by decide) (by decide) (by decide) (by decide)
      (by rw [List.length_replicate]) (by rw [List.length_replicate])
      (by
        intro w hw
        rw [List.eq_of_mem_replicate hw]
        decide)
      (by
        intro w hw
        rw [List.eq_of_mem_replicate hw]
        decide)⟩

/-! ## Distributor polling loop (vap_bc_main.py lines 408-434, 227-231)

`proc_serv_out_dist` keeps `previous_time` (initialized from
`vap.process_time_abs`) and polls: when `vap.process_time_abs` equals
`previous_time` it sleeps and retries; otherwise it stores the new value
and snapshots `result_last_time` together with the other result fields for
sending.  `process_vap` publishes at the end of step k the pair
(`result_last_time`, `process_time_abs`), both `time.time()` readings; at
construction (`VAPRealTime.__init__` lines 229-231) both are -1.

The shared state is modelled as the sequence of publications indexed
0, 1, 2, ...: index 0 is the construction state, index k ≥ 1 the state
after the k-th completed inference step; publications happen in order, so
successive reads observe nondecreasing indices.  Timestamps are integers.

The source performs THREE separate unsynchronized reads per iteration:
`process_time_abs` at line 414 (the comparison), `process_time_abs` again
at line 418 (the stored value) and `result_last_time` at line 420 (the
sent value), against the writes of `process_vap` at line 312
(`result_last_time`) and line 324 (`process_time_abs`).  Two models are
used below: `distStep` merges the three reads into one atomic observation
of a single publication — a simplification that is sound for what is
proved with it (nothing from publication 0 ever escapes) but hides
executions where an inference step completes between the reads;
`distStepTorn` keeps the three reads separate and is the faithful model
for the ordering of the sent timestamps. -/

structure Publication where
  pta : Int
  t : Int

/-- One distributor poll under the ATOMIC-observation simplification: the
comparison, the stored `process_time_abs` and the sent `result_last_time`
all come from the same publication `k`. -/
def distStep (pub : Nat → Publication) (st : Int × List Int) (k : Nat) :
    Int × List Int :=
  if (pub k).pta = st.1 then st
  else ((pub k).pta, st.2 ++ [(pub k).t])

/-- The distributor loop over a finite observation trace; `j0` is the
publication observed by the initial `previous_time = vap.process_time_abs`
read.  Returns the timestamps sent, in order. -/
def distRun (pub : Nat → Publication) (j0 : Nat) (obs : List Nat) : List Int :=
  (obs.foldl (distStep pub) ((pub j0).pta, [])).2

theorem distFold_mem (pub : Nat → Publication)
    (hpta : StrictMono fun k => (pub k).pta) :
    ∀ (obs : List Nat) (j : Nat) (sent : List Int),
    (∀ k ∈ obs, j ≤ k) → List.Sorted (· ≤ ·) obs →
    ∀ x ∈ (obs.foldl (distStep pub) ((pub j).pta, sent)).2,
      x ∈ sent ∨ ∃ k, k ∈ obs ∧ j < k ∧ x = (pub k).t := by
  intro obs
  induction obs with
  | nil =>
    intro j sent _ _ x hx
    exact Or.inl hx
  | cons k rest ih =>
    intro j sent hlb hsort x hx
    obtain ⟨hhead, htail⟩ := List.sorted_cons.mp hsort
    rw [List.foldl_cons] at hx
    by_cases heq : (pub k).pta = (pub j).pta
    · have hkj : k = j := hpta.injective heq
      rw [distStep, if_pos heq] at hx
      rcases ih j sent (fun m hm => hkj ▸ hhead m hm) htail x hx with h | ⟨m, hm, hjm, hxm⟩
      · exact Or.inl h
      · exact Or.inr ⟨m, by simp [hm], hjm, hxm⟩
    · have hjk : j < k := lt_of_le_of_ne (hlb k (by simp)) (fun h => heq (by rw [h]))
      rw [distStep, if_neg heq] at hx
      rcases ih k (sent ++ [(pub k).t]) hhead htail x hx with h | ⟨m, hm, hkm, hxm⟩
      · rcases List.mem_append.mp h with h | h
        · exact Or.inl h
        · rw [List.mem_singleton] at h
          exact Or.inr ⟨k, by simp, hjk, h⟩
      · exact Or.inr ⟨m, by simp [hm], lt_trans hjk hkm, hxm⟩

theorem distFold_chain (pub : Nat → Publication)
    (hpta : StrictMono fun k => (pub k).pta)
    (ht : StrictMono fun k => (pub k).t) :
    ∀ (obs : List Nat) (j : Nat) (sent : List Int),
    (∀ k ∈ obs, j ≤ k) → List.Sorted (· ≤ ·) obs →
    List.Chain' (· < ·) sent → (∀ x ∈ sent, x ≤ (pub j).t) →
    List.Chain' (· < ·) (obs.foldl (distStep pub) ((pub j).pta, sent)).2 := by
  intro obs
  induction obs with
  | nil =>
    intro j sent _ _ hchain _
    exact hchain
  | cons k rest ih =>
    intro j sent hlb hsort hchain hbound
    obtain ⟨hhead, htail⟩ := List.sorted_cons.mp hsort
    rw [List.foldl_cons]
    by_cases heq : (pub k).pta = (pub j).pta
    · have hkj : k = j := hpta.injective heq
      rw [distStep, if_pos heq]
      exact ih j sent (fun m hm => hkj ▸ hhead m hm) htail hchain hbound
    · have hjk : j < k := lt_of_le_of_ne (hlb k (by simp)) (fun h => heq (by rw [h]))
      have htjk : (pub j).t < (pub k).t := ht hjk
      rw [distStep, if_neg heq]
      refine ih k (sent ++ [(pub k).t]) hhead htail ?_ ?_
      · rw [List.chain'_append]
        refine ⟨hchain, List.chain'_singleton _, ?_⟩
        intro x hx y hy
        have hy' : y = (pub k).t := by
          have := hy
          simp at this
          omega
        obtain ⟨hne, hxl⟩ := List.mem_getLast?_eq_getLast hx
        rw [hy', hxl]
        exact lt_of_le_of_lt (hbound _ (List.getLast_mem hne)) htjk
      · intro x hx
        rcases List.mem_append.mp hx with h | h
        · exact le_of_lt (lt_of_le_of_lt (hbound x h) htjk)
        · rw [List.mem_singleton.mp h]

/-! ### The torn-read model of one distributor iteration

One iteration reads, in program order, `process_time_abs` (line 414),
`process_time_abs` again (line 418) and `result_last_time` (line 420);
each read observes the publication index current at its own moment.
Program order constrains the indices as follows: successive reads of the
same variable never observe an older publication, and at every moment the
`process_time_abs` index is at most the `result_last_time` index, because
`process_vap` writes `result_last_time` (line 312) BEFORE
`process_time_abs` (line 324).  Hence within an iteration `k1 ≤ k2 ≤ k3`,
across iterations the `k1`/`k2` indices are nondecreasing and the `k3`
indices are nondecreasing — but a later iteration's `k1` may still LAG an
earlier iteration's `k3`, which is exactly the interleaving the atomic
model hides. -/

structure TornObs where
  k1 : Nat
  k2 : Nat
  k3 : Nat
  deriving DecidableEq, Repr

/-- One distributor poll with the three reads kept separate: compare
`(pub k1).pta` with `previous_time`; on change, store `(pub k2).pta` and
send `(pub k3).t`. -/
def distStepTorn (pub : Nat → Publication) (st : Int × List Int)
    (o : TornObs) : Int × List Int :=
  if (pub o.k1).pta = st.1 then st
  else ((pub o.k2).pta, st.2 ++ [(pub o.k3).t])

/-- The distributor loop over a finite torn-read trace; `j0` is the
publication observed by the initial `previous_time` read. -/
def distRunTorn (pub : Nat → Publication) (j0 : Nat) (obs : List TornObs) :
    List Int :=
  (obs.foldl (distStepTorn pub) ((pub j0).pta, [])).2

/-- A concrete publication sequence with strictly increasing clocks:
`process_time_abs` 0, 2, 4, ... and `result_last_time` 1, 3, 5, ... -/
def pubC (k : Nat) : Publication :=
  ⟨2 * (k : Int), 2 * (k : Int) + 1⟩

theorem pubC_pta_strictMono : StrictMono fun k => (pubC k).pta :=
  fun a b h => by
    simp only [pubC]
    omega

theorem pubC_t_strictMono : StrictMono fun k => (pubC k).t :=
  fun a b h => by
    simp only [pubC]
    omega

/-- C6 counterexample: a real interleaving on which the distributor sends
the same timestamp twice.  The clocks are strictly increasing
(`pubC`).  Iteration one reads `process_time_abs` of step 1 at lines
414/418 (k1 = k2 = 1), but step 2 completes its line-312 write of
`result_last_time` before the line-420 copy, so k3 = 2 and timestamp 5 is
sent; iteration two then sees `process_time_abs` of step 2 (≠ stored), and
with no step 3 yet copies `result_last_time` of step 2 again — timestamp
5 is sent a second time.  The trace satisfies every program-order
constraint: the pta-read indices (j0 then k1, k2 per iteration) are
nondecreasing, the rlt-read indices are nondecreasing, and k2 ≤ k3 in each
iteration.  The sent sequence [5, 5] is not strictly increasing, refuting
"never sends a timestamp equal to the last one sent". -/
theorem distributor_torn_counterexample :
    distRunTorn pubC 0 [TornObs.mk 1 1 2, TornObs.mk 2 2 2] = [5, 5] ∧
    ¬ List.Chain' (· < ·)
        (distRunTorn pubC 0 [TornObs.mk 1 1 2, TornObs.mk 2 2 2]) ∧
    List.Chain' (· ≤ ·) [0, 1, 1, 2, 2] ∧
    List.Chain' (· ≤ ·)
      ([TornObs.mk 1 1 2, TornObs.mk 2 2 2].map TornObs.k3) ∧
    (∀ o ∈ [TornObs.mk 1 1 2, TornObs.mk 2 2 2], o.k2 ≤ o.k3) ∧
    StrictMono (fun k => (pubC k).pta) ∧ StrictMono (fun k => (pubC k).t) := by
  have hrun : distRunTorn pubC 0 [TornObs.mk 1 1 2, TornObs.mk 2 2 2] = [5, 5] := by
    decide
  refine ⟨hrun, ?_, ?_, ?_, by decide, pubC_pta_strictMono, pubC_t_strictMono⟩
  · rw [hrun]
    norm_num [List.chain'_cons]
  · norm_num [List.chain'_cons]
  · norm_num [List.chain'_cons]

theorem distFoldTorn_chain_le (pub : Nat → Publication)
    (hmt : Monotone fun k => (pub k).t) :
    ∀ (obs : List TornObs) (prev : Int) (sent : List Int) (b : Nat),
    (∀ o ∈ obs, b ≤ o.k3) →
    List.Pairwise (· ≤ ·) (obs.map TornObs.k3) →
    List.Chain' (· ≤ ·) sent → (∀ x ∈ sent, x ≤ (pub b).t) →
    List.Chain' (· ≤ ·) ((obs.foldl (distStepTorn pub) (prev, sent)).2) := by
  intro obs
  induction obs with
  | nil =>
    intro prev sent b _ _ hchain _
    exact hchain
  | cons o rest ih =>
    intro prev sent b hb hpw hchain hbound
    rw [List.map_cons, List.pairwise_cons] at hpw
    obtain ⟨hhead, htail⟩ := hpw
    rw [List.foldl_cons]
    by_cases heq : (pub o.k1).pta = prev
    · rw [distStepTorn]
      dsimp only
      rw [if_pos heq]
      exact ih prev sent b (fun v hv => hb v (by simp [hv])) htail hchain hbound
    · rw [distStepTorn]
      dsimp only
      rw [if_neg heq]
      have hbk3 : b ≤ o.k3 := hb o (by simp)
      have hmono : (pub b).t ≤ (pub o.k3).t := hmt hbk3
      refine ih _ (sent ++ [(pub o.k3).t]) o.k3
        (fun v hv => hhead v.k3 (List.mem_map_of_mem _ hv)) htail ?_ ?_
      · rw [List.chain'_append]
        refine ⟨hchain, List.chain'_singleton _, ?_⟩
        intro x hx y hy
        have hy' : y = (pub o.k3).t := by
          have := hy
          simp at this
          omega
        obtain ⟨hne, hxl⟩ := List.mem_getLast?_eq_getLast hx
        rw [hy', hxl]
        exact le_trans (hbound _ (List.getLast_mem hne)) hmono
      · intro x hx
        rcases List.mem_append.mp hx with h | h
        · exact le_trans (hbound x h) hmono
        · rw [List.mem_singleton.mp h]

theorem distRunTorn_atomic (pub : Nat → Publication) :
    ∀ (obs : List TornObs) (st : Int × List Int),
    (∀ o ∈ obs, o.k1 = o.k2 ∧ o.k2 = o.k3) →
    obs.foldl (distStepTorn pub) st = (obs.map TornObs.k1).foldl (distStep pub) st := by
  intro obs
  induction obs with
  | nil =>
    intro st _
    rfl
  | cons o rest ih =>
    intro st hat
    obtain ⟨h12, h23⟩ := hat o (by simp)
    have h21 : o.k2 = o.k1 := h12.symm
    have h31 : o.k3 = o.k1 := (h12.trans h23).symm
    rw [List.map_cons, List.foldl_cons, List.foldl_cons]
    have hstep : distStepTorn pub st o = distStep pub st o.k1 := by
      rw [distStepTorn, distStep, h21, h31]
    rw [hstep]
    exact ih _ (fun v hv => hat v (by simp [hv]))

/-- C6 (amended): in the faithful model where each loop iteration performs
its three reads (`process_time_abs` at lines 414 and 418,
`result_last_time` at line 420) as separate unsynchronized observations —
constrained only by program order, under which successive reads of
`result_last_time` never observe an older publication — and the inference
steps publish monotone timestamps, the sequence of timestamps the
distributor sends is non-decreasing: it never sends a snapshot whose
timestamp is OLDER than the last one it already sent.  It can send the
same timestamp twice (see the counterexample), so the strict form of the
claim holds only in the special case where all three reads of every
iteration observe one publication atomically: the sent sequence is then
strictly increasing. -/
theorem distributor_nondecreasing (pub : Nat → Publication) (j0 : Nat)
    (obs : List TornObs)
    (hmt : Monotone fun k => (pub k).t)
    (hk3 : List.Chain' (· ≤ ·) (obs.map TornObs.k3)) :
    List.Chain' (· ≤ ·) (distRunTorn pub j0 obs) ∧
    ((∀ o ∈ obs, o.k1 = o.k2 ∧ o.k2 = o.k3) →
      StrictMono (fun k => (pub k).pta) →
      StrictMono (fun k => (pub k).t) →
      (∀ o ∈ obs, j0 ≤ o.k1) →
      List.Sorted (· ≤ ·) (obs.map TornObs.k1) →
      List.Chain' (· < ·) (distRunTorn pub j0 obs)) := by
  constructor
  · rw [distRunTorn]
    exact distFoldTorn_chain_le pub hmt obs ((pub j0).pta) [] 0
      (fun o _ => Nat.zero_le _) (List.chain'_iff_pairwise.mp hk3)
      List.chain'_nil (by simp)
  · intro hat hpta ht hlb hsort
    rw [distRunTorn, distRunTorn_atomic pub obs _ hat]
    refine distFold_chain pub hpta ht (obs.map TornObs.k1) j0 [] ?_ hsort
      List.chain'_nil (by simp)
    intro k hk
    obtain ⟨o, ho, rfl⟩ := List.mem_map.mp hk
    exact hlb o ho

/-- Witness for the amended C6 at concrete inputs: the publications `pubC`
and the atomic observation trace [⟨1,1,1⟩, ⟨2,2,2⟩]. -/
theorem distributor_nondecreasing_witness :
    (Monotone (fun k => (pubC k).t) ∧
      List.Chain' (· ≤ ·)
        ([TornObs.mk 1 1 1, TornObs.mk 2 2 2].map TornObs.k3)) ∧
    (List.Chain' (· ≤ ·)
        (distRunTorn pubC 0 [TornObs.mk 1 1 1, TornObs.mk 2 2 2]) ∧
    ((∀ o ∈ [TornObs.mk 1 1 1, TornObs.mk 2 2 2], o.k1 = o.k2 ∧ o.k2 = o.k3) →
      StrictMono (fun k => (pubC k).pta) →
      StrictMono (fun k => (pubC k).t) →
      (∀ o ∈ [TornObs.mk 1 1 1, TornObs.mk 2 2 2], 0 ≤ o.k1) →
      List.Sorted (· ≤ ·) ([TornObs.mk 1 1 1, TornObs.mk 2 2 2].map TornObs.k1) →
      List.Chain' (· < ·)
        (distRunTorn pubC 0 [TornObs.mk 1 1 1, TornObs.mk 2 2 2]))) :=
  ⟨⟨pubC_t_strictMono.monotone, by norm_num [List.chain'_cons]⟩,
    distributor_nondecreasing pubC 0 [TornObs.mk 1 1 1, TornObs.mk 2 2 2]
      pubC_t_strictMono.monotone (by norm_num [List.chain'_cons])⟩

/-- C10: when the distributor loop starts while the shared state is still
the construction state (publication 0, whose `process_time_abs` and
`result_last_time` are both the sentinel -1), every timestamp it ever
sends belongs to a completed inference step (a publication of index ≥ 1),
and in particular the sentinel -1 set at construction is never
transmitted. -/
theorem distributor_no_sentinel (pub : Nat → Publication) (obs : List Nat)
    (hpta : StrictMono fun k => (pub k).pta)
    (hsent : ∀ k, 1 ≤ k → (pub k).t ≠ -1)
    (hsort : List.Sorted (· ≤ ·) obs) :
    ∀ x ∈ distRun pub 0 obs, (∃ k, 1 ≤ k ∧ x = (pub k).t) ∧ x ≠ -1 := by
  intro x hx
  rcases distFold_mem pub hpta obs 0 [] (fun k _ => Nat.zero_le k) hsort x hx with
    h | ⟨k, _, hk, hxk⟩
  · simp at h
  · refine ⟨⟨k, by omega, hxk⟩, ?_⟩
    rw [hxk]
    exact hsent k (by omega)

/-- Witness for C10 at a concrete input: publications ⟨k-1, k-1⟩ (so
publication 0 carries the sentinel -1 in both fields) and the observation
trace [0, 0, 1, 2]. -/
theorem distributor_no_sentinel_witness :
    ((∀ k : Nat, 1 ≤ k → (((k : Int) - 1 : Int)) ≠ -1) ∧
      List.Sorted (· ≤ ·) [0, 0, 1, 2]) ∧
    ∀ x ∈ distRun (fun k => ⟨(k : Int) - 1, (k : Int) - 1⟩) 0 [0, 0, 1, 2],
      (∃ k : Nat, 1 ≤ k ∧ x = ((k : Int) - 1)) ∧ x ≠ -1 :=
  ⟨⟨fun k hk => by
      have : (1 : Int) ≤ (k : Int) := by exact_mod_cast hk
      omega, by decide⟩,
    distributor_no_sentinel (fun k => ⟨(k : Int) - 1, (k : Int) - 1⟩) [0, 0, 1, 2]
      (fun a b h => by
        simp only
        have : (a : Int) < (b : Int) := by exact_mod_cast h
        omega)
      (fun k hk => by
        simp only
        have : (1 : Int) ≤ (k : Int) := by exact_mod_cast hk
        omega)
      (by decide)⟩

/-! ## Input server state machine (vap_bc_main.py lines 354-406)

`proc_serv_in` runs an unconditional outer `while True`: create a socket,
bind, listen, accept one producer, re-initialize both channel buffers to
320 zero samples, then run the inner streaming loop.  A zero-length read
(`len(data) == 0`) breaks the inner loop and control falls back to the
top of the outer loop; any exception — a read or decode failure while
streaming, or a failure while binding or accepting — is caught by the
`except` wrapping the whole body, which logs and `continue`s the outer
loop.  No path leaves the outer loop.

Events model what the environment does next: a producer connects
(`accept`), a decoded chunk arrives (`data`), the peer closes cleanly
(`eof` — the zero-length read), or any other error is raised (`err`).
`data`, `eof` and `err` only occur in the streaming state and `accept`
only in the listening state; the remaining state/event combinations are
inert. -/

inductive InEvent
  | accept
  | data (c : Chunk)
  | eof
  | err

inductive ServerState
  | listening
  | streaming (b : Buffers)
  deriving DecidableEq

def serverStep : ServerState → InEvent → ServerState × Option (List Int × List Int)
  | .listening, .accept => (.streaming initBuffers, none)
  | .listening, _ => (.listening, none)
  | .streaming b, .data c => (.streaming (ingest b c).1, (ingest b c).2)
  | .streaming _, .eof => (.listening, none)
  | .streaming _, .err => (.listening, none)
  | .streaming b, .accept => (.streaming b, none)

def runServer (s : ServerState) : List InEvent → ServerState × List (List Int × List Int)
  | [] => (s, [])
  | e :: evs =>
    let r := serverStep s e
    let rest := runServer r.1 evs
    (rest.1, r.2.toList ++ rest.2)

theorem runServer_err_listening (n : Nat) :
    runServer .listening (List.replicate n .err ++ [.accept]) =
      (.streaming initBuffers, []) := by
  induction n with
  | zero => simp [runServer, serverStep]
  | succ n ih =>
    rw [List.replicate_succ, List.cons_append]
    simp only [runServer, serverStep]
    rw [ih]
    simp

/-- C7: while streaming, a zero-length read (peer closed cleanly) sends
the input server back to the listening state without emitting any window
from the incomplete trailing buffer contents, and a new producer is then
accepted — with freshly re-initialized buffers — without a process
restart; any other read/decode error likewise returns the server to
listening, and after any number of consecutive errors an accept still
succeeds (the server never exits on this path, there is no terminal
state). -/
theorem server_recovers (b : Buffers) (n : Nat) :
    serverStep (.streaming b) .eof = (.listening, none) ∧
    serverStep (.streaming b) .err = (.listening, none) ∧
    serverStep .listening .accept = (.streaming initBuffers, none) ∧
    runServer (.streaming b) [.eof, .accept] = (.streaming initBuffers, []) ∧
    runServer (.streaming b) (.err :: (List.replicate n .err ++ [.accept])) =
      (.streaming initBuffers, []) := by
  refine ⟨rfl, rfl, rfl, by simp [runServer, serverStep], ?_⟩
  simp only [runServer, serverStep]
  rw [runServer_err_listening]
  simp

/-- Witness for C3 at a concrete input: the 51 embeddings 0, 1, ..., 50. -/
theorem embedding_context_fifo_witness :
    AUDIO_CONTEXT_LIM < (List.range 51).length ∧
    (runContext (List.range 51) =
        (List.range 51).drop ((List.range 51).length - AUDIO_CONTEXT_LIM) ∧
    (runContext (List.range 51)).length = AUDIO_CONTEXT_LIM ∧
    ∀ n : Nat, (runContext ((List.range 51).take n)).length ≤ AUDIO_CONTEXT_LIM) :=
  ⟨by decide, embedding_context_fifo (List.range 51) (by decide)⟩

end VapBC
